import Mathlib

/-!
Verification of the rag-docling document ingestion and retrieval server.

This file gives a shallow embedding, in Lean 4, of the parts of the
`rag_server` service that the specification's testable claims talk about:

* the metadata sanitizer `clean_metadata_for_chroma`
  (services/document.py),
* the Redis-backed batch progress store (infrastructure/tasks/progress.py),
* the per-chunk insert retry loop `_insert_node_with_retry` and
  `add_documents` (infrastructure/database/chroma.py),
* the reranker construction `create_reranker_postprocessors`
  (services/rag.py and core_logic/rag_pipeline.py),
* the source extraction `_extract_sources` (services/rag.py),
* chunk stamping performed by the ingestion task (tasks.py),
* `check_documents_exist` and `delete_document`
  (infrastructure/database/chroma.py),
* the temp-file cleanup decision in the `finally` block of
  `process_document_task` (tasks.py / infrastructure/tasks/worker.py).

Python dictionaries are modelled as insertion-ordered association lists
with overwriting insert, Python values as the inductive type `PyVal`,
exceptions as explicit result values, and the Redis store as an
association list from keys to batch records.  Machine-level concerns
(actual network I/O, real sleeping, uuid generation) are abstracted into
explicit parameters; everything that the claims quantify over is kept.
-/

namespace RagDocling

/-- A Python value as it can appear in chunk metadata or progress
payloads: `None`, `str`, `int`, `bool`, `float` (carried by its textual
representation: no arithmetic is ever performed on metadata floats),
`dict` (insertion-ordered key/value pairs) and `list`, plus `other` for
any remaining object, carried together with its `str()` rendering. -/
inductive PyVal where
  | none : PyVal
  | str : String → PyVal
  | int : Int → PyVal
  | bool : Bool → PyVal
  | float : String → PyVal
  | dict : List (String × PyVal) → PyVal
  | list : List PyVal → PyVal
  | other : String → PyVal

/-- `isinstance(value, (str, int, float, bool))` or `value is None`:
the ChromaDB-compatible primitive types. -/
def PyVal.isPrim : PyVal → Bool
  | .none => true
  | .str _ => true
  | .int _ => true
  | .bool _ => true
  | .float _ => true
  | _ => false

/-- Python `str(value)`.  Primitive renderings follow CPython; for
containers only existence matters to the sanitizer, which never calls
`str` on the container itself except through the `other` fallback. -/
def PyVal.pyStr : PyVal → String
  | .none => "None"
  | .str s => s
  | .int n => toString n
  | .bool true => "True"
  | .bool false => "False"
  | .float r => r
  | .dict _ => "<dict>"
  | .list _ => "<list>"
  | .other s => s

/-- Insertion-ordered dictionary assignment `m[k] = v`: overwrite in
place when the key is present, append otherwise (CPython dict
semantics). -/
def dictInsert (k : String) (v : α) : List (String × α) → List (String × α)
  | [] => [(k, v)]
  | (k', v') :: rest =>
      if k' = k then (k, v) :: rest else (k', v') :: dictInsert k v rest

/-- `k in m` for the association-list model of a Python dict. -/
def dictMem (k : String) (m : List (String × α)) : Bool :=
  (m.map Prod.fst).contains k

/-- One iteration of the `for key, value in metadata.items()` loop of
`clean_metadata_for_chroma` (services/document.py), acting on the
`cleaned` accumulator dict. -/
def cleanStep (cleaned : List (String × PyVal)) (kv : String × PyVal) :
    List (String × PyVal) :=
  match kv with
  | (key, value) =>
    match value with
    | .none => dictInsert key .none cleaned
    | .str s => dictInsert key (.str s) cleaned
    | .int n => dictInsert key (.int n) cleaned
    | .bool b => dictInsert key (.bool b) cleaned
    | .float r => dictInsert key (.float r) cleaned
    | .dict d =>
        let withFilename :=
          match d.lookup "filename" with
          | some sub => dictInsert (key ++ "_filename") (.str sub.pyStr) cleaned
          | Option.none => cleaned
        match d.lookup "mimetype" with
        | some sub => dictInsert (key ++ "_mimetype") (.str sub.pyStr) withFilename
        | Option.none => withFilename
    | .list _ => cleaned
    | .other s => dictInsert key (.str (PyVal.pyStr (.other s))) cleaned

/-- `clean_metadata_for_chroma(metadata)` from services/document.py:
keep `None | str | int | float | bool` unchanged; for a `dict` value,
copy out only the stringified `filename` and `mimetype` entries under
prefixed keys; skip `list` values; stringify anything else. -/
def clean_metadata_for_chroma (metadata : List (String × PyVal)) :
    List (String × PyVal) :=
  metadata.foldl cleanStep []

/-! ## Progress store (infrastructure/tasks/progress.py)

The Redis value under key `batch:{batch_id}` is a JSON object; we model
the parsed object directly.  `client.get` is association-list lookup,
`client.set` is `dictInsert`; key absence covers both a never-created
batch and a TTL-expired one. -/

/-- Per-task record inside a batch, as created by `create_batch` and
mutated by the three write operations. -/
structure TaskState where
  task_id : String
  filename : String
  status : String
  data : List (String × PyVal)
  total_chunks : Nat
  completed_chunks : Nat

/-- The batch record stored under `batch:{batch_id}`. -/
structure BatchData where
  batch_id : String
  total : Nat
  completed : Nat
  total_chunks : Nat
  completed_chunks : Nat
  tasks : List (String × TaskState)

/-- The keyed store (Redis restricted to the `batch:*` keyspace). -/
abbrev ProgressStore := List (String × BatchData)

/-- `f"batch:{batch_id}"`. -/
def batchKey (batch_id : String) : String := "batch:" ++ batch_id

/-- The `for task_id, filename in zip(task_ids, filenames)` loop of
`create_batch`, filling the `tasks` dict. -/
def initTasks (pairs : List (String × String)) : List (String × TaskState) :=
  pairs.foldl
    (fun acc p =>
      dictInsert p.1
        ⟨p.1, p.2, "pending", [], 0, 0⟩ acc) []

/-- `create_batch(batch_id, task_ids, filenames)`:
`total = len(task_ids)`, `completed = 0`, one `pending` task per
`zip(task_ids, filenames)` pair. -/
def create_batch (store : ProgressStore) (batch_id : String)
    (task_ids filenames : List String) : ProgressStore :=
  dictInsert (batchKey batch_id)
    ⟨batch_id, task_ids.length, 0, 0, 0, initTasks (task_ids.zip filenames)⟩
    store

/-- `status in ["completed", "error"]`. -/
def isTerminal (status : String) : Bool :=
  status = "completed" || status = "error"

/-- In-place mutation of one task record inside the `tasks` dict. -/
def updateTaskEntry (tasks : List (String × TaskState)) (task_id : String)
    (f : TaskState → TaskState) : List (String × TaskState) :=
  tasks.map (fun p => if p.1 = task_id then (p.1, f p.2) else p)

/-- The batch-record part of `update_task_progress`, applied once the
batch has been fetched and the task found:
set the task's `status` and `data`; if the new status is terminal,
`batch_data["completed"] += 1`. -/
def updateBatchProgress (b : BatchData) (task_id status : String)
    (data : List (String × PyVal)) : BatchData :=
  let b' := { b with
    tasks := updateTaskEntry b.tasks task_id
      (fun t => { t with status := status, data := data }) }
  if isTerminal status then { b' with completed := b'.completed + 1 } else b'

/-- `update_task_progress(batch_id, task_id, status, data)`: silently
return when the batch key is absent (missing or expired) or the task is
not registered; otherwise write the updated record back. -/
def update_task_progress (store : ProgressStore) (batch_id task_id status : String)
    (data : List (String × PyVal)) : ProgressStore :=
  match (store.lookup (batchKey batch_id)) with
  | Option.none => store
  | some b =>
      if dictMem task_id b.tasks then
        dictInsert (batchKey batch_id) (updateBatchProgress b task_id status data) store
      else store

/-- The batch-record part of `set_task_total_chunks`. -/
def setBatchTotalChunks (b : BatchData) (task_id : String) (n : Nat) : BatchData :=
  { b with
    tasks := updateTaskEntry b.tasks task_id (fun t => { t with total_chunks := n })
    total_chunks := b.total_chunks + n }

/-- `set_task_total_chunks(batch_id, task_id, total_chunks)`. -/
def set_task_total_chunks (store : ProgressStore) (batch_id task_id : String)
    (n : Nat) : ProgressStore :=
  match (store.lookup (batchKey batch_id)) with
  | Option.none => store
  | some b =>
      if dictMem task_id b.tasks then
        dictInsert (batchKey batch_id) (setBatchTotalChunks b task_id n) store
      else store

/-- The batch-record part of `increment_task_chunk_progress`. -/
def incBatchChunkProgress (b : BatchData) (task_id : String) : BatchData :=
  { b with
    tasks := updateTaskEntry b.tasks task_id
      (fun t => { t with completed_chunks := t.completed_chunks + 1 })
    completed_chunks := b.completed_chunks + 1 }

/-- `increment_task_chunk_progress(batch_id, task_id)`. -/
def increment_task_chunk_progress (store : ProgressStore)
    (batch_id task_id : String) : ProgressStore :=
  match (store.lookup (batchKey batch_id)) with
  | Option.none => store
  | some b =>
      if dictMem task_id b.tasks then
        dictInsert (batchKey batch_id) (incBatchChunkProgress b task_id) store
      else store

/-- One `update_task_progress` write issued against a fixed batch:
the target task, the new status, and the payload. -/
structure ProgressWrite where
  task : String
  status : String
  data : List (String × PyVal)

/-- Apply a sequence of `update_task_progress` writes to the store,
all addressed to batch `batch_id` (the ingestion task only ever writes
its own batch). -/
def applyWrites (store : ProgressStore) (batch_id : String)
    (ws : List ProgressWrite) : ProgressStore :=
  ws.foldl (fun s w => update_task_progress s batch_id w.task w.status w.data) store

/-- The effect of one `update_task_progress` write on the batch record
itself: a no-op when the task is not registered. -/
def updateBatchIfRegistered (b : BatchData) (w : ProgressWrite) : BatchData :=
  if dictMem w.task b.tasks then updateBatchProgress b w.task w.status w.data else b

/-- Batch-record-level version of `applyWrites`. -/
def applyWritesB (ws : List ProgressWrite) (b : BatchData) : BatchData :=
  ws.foldl updateBatchIfRegistered b

/-- The writes of a sequence that carry a terminal status. -/
def terminalWrites (ws : List ProgressWrite) : List ProgressWrite :=
  ws.filter (fun w => isTerminal w.status)

/-- The task ids registered in a batch record. -/
def taskKeys (b : BatchData) : List String :=
  b.tasks.map Prod.fst

/-! ## Temp-file cleanup in the ingestion task (tasks.py,
infrastructure/tasks/worker.py)

`process_document_task` is retried by the queue (`max_retries = 3`) on
any exception; attempt number `k` runs with `self.request.retries = k`.
Its `finally` block deletes the temporary source file only when
`will_retry` is false.  A run is abstracted by the predicate
`raises k = true` iff attempt `k` ends in an uncaught exception; the
queue re-runs the task after attempt `k` iff it raised and
`k < max_retries`. -/

/-- `will_retry = self.request.retries < self.max_retries` — computed in
the `finally` block regardless of whether the attempt succeeded. -/
def will_retry (retries max_retries : Nat) : Bool :=
  decide (retries < max_retries)

/-- The `finally` block unlinks the temp file on the current attempt iff
`not will_retry`. -/
def attemptDeletesTempFile (retries max_retries : Nat) : Bool :=
  !(will_retry retries max_retries)

/-- Index of the last attempt the queue executes: starting from attempt
`k` with `fuel` permitted re-runs remaining, re-run while the attempt
raises and fuel remains. -/
def lastAttemptFrom (raises : Nat → Bool) : Nat → Nat → Nat
  | 0, k => k
  | fuel + 1, k => if raises k then lastAttemptFrom raises fuel (k + 1) else k

/-- Index of the last executed attempt of a task run. -/
def lastAttempt (max_retries : Nat) (raises : Nat → Bool) : Nat :=
  lastAttemptFrom raises max_retries 0

/-- Whether the whole run ever deletes the temp file: the `finally`
block executes on every attempt `0 .. lastAttempt`, so the file is
deleted iff some executed attempt decides to delete it. -/
def tempFileDeleted (max_retries : Nat) (raises : Nat → Bool) : Bool :=
  (List.range (lastAttempt max_retries raises + 1)).any
    (fun k => attemptDeletesTempFile k max_retries)

/-! ## Chunk-insert retry loop
(`_insert_node_with_retry` / `add_documents`,
infrastructure/database/chroma.py)

`index.insert_nodes([node])` is a remote call; we abstract one call at
attempt `k` by `outcomes k`: either it returns (`ok`) or raises an
exception with message `err msg`.  `time.sleep(delay)` is recorded in
the list of delays (in seconds, as exact rationals: the code only ever
computes `2.0 * 2**attempt`, which is exact in binary floating point). -/

inductive InsertOutcome where
  | ok : InsertOutcome
  | err : String → InsertOutcome
deriving DecidableEq

inductive InsertResult where
  | success : InsertResult
  | raised : String → InsertResult
deriving DecidableEq

/-- Observable trace of one `_insert_node_with_retry` call: how many
`insert_nodes` attempts ran, which backoff sleeps happened (in order),
and whether the call returned or raised. -/
structure RetryRun where
  attempts : Nat
  delays : List ℚ
  result : InsertResult
deriving DecidableEq

/-- The substrings whose presence in the lowercased exception message
classifies it as an Ollama connection error. -/
def connectionErrorTerms : List String :=
  ["eof", "connection", "timeout", "refused", "unavailable"]

/-- ASCII lowering of one character (`str.lower()` restricted to the
ASCII range, which covers every exception message the classifier's
search terms can match). -/
def charLower (c : Char) : Char :=
  if 65 ≤ c.toNat ∧ c.toNat ≤ 90 then Char.ofNat (c.toNat + 32) else c

/-- `str(e).lower()` as a character list. -/
def pyLower (s : String) : List Char :=
  s.toList.map charLower

/-- `term in error_msg` for Python strings, on character lists. -/
def listContainsSub (hay needle : List Char) : Bool :=
  hay.tails.any (fun suf => needle.isPrefixOf suf)

/-- `is_connection_error = any(term in error_msg for term in [...])`
with `error_msg = str(e).lower()`. -/
def is_connection_error (msg : String) : Bool :=
  connectionErrorTerms.any (fun term => listContainsSub (pyLower msg) term.toList)

/-- The `for attempt in range(max_retries)` loop of
`_insert_node_with_retry`: on success return; on a connection error
before the last attempt sleep `base_delay * 2 ** attempt` and continue;
otherwise re-raise.  The unreachable fall-through (`raise Exception(
"Failed to embed node ...")`) is kept for fidelity. -/
def insertRetryGo (outcomes : Nat → InsertOutcome) (max_retries : Nat)
    (base_delay : ℚ) (attempt : Nat) (delays : List ℚ) : RetryRun :=
  if h : attempt < max_retries then
    match outcomes attempt with
    | .ok => ⟨attempt + 1, delays, .success⟩
    | .err m =>
        if is_connection_error m && decide (attempt < max_retries - 1) then
          insertRetryGo outcomes max_retries base_delay (attempt + 1)
            (delays ++ [base_delay * 2 ^ attempt])
        else ⟨attempt + 1, delays, .raised m⟩
  else ⟨attempt, delays, .raised "Failed to embed node after max_retries attempts"⟩
termination_by max_retries - attempt
decreasing_by omega

/-- `_insert_node_with_retry(index, node, max_retries, base_delay)`;
`add_documents` invokes it per chunk with `max_retries=3`,
`base_delay=2.0`. -/
def insert_node_with_retry (outcomes : Nat → InsertOutcome)
    (max_retries : Nat) (base_delay : ℚ) : RetryRun :=
  insertRetryGo outcomes max_retries base_delay 0 []

/-! ## Reranker construction (services/rag.py and
core_logic/rag_pipeline.py, `create_reranker_postprocessors`)

Both copies compute `top_n = max(5, config['retrieval_top_k'] // 2)` and
build one `SentenceTransformerRerank(model=..., top_n=top_n)`
postprocessor, or return `None` when reranking is disabled. -/

/-- The environment-derived reranker configuration (`reranker_config` /
`get_reranker_config`). -/
structure RerankerConfig where
  enabled : Bool
  model : String
  retrieval_top_k : Nat

/-- The constructed postprocessor, identified by its two constructor
arguments. -/
structure SbertRerank where
  model : String
  top_n : Nat

/-- `create_reranker_postprocessors()`: `None` when disabled, otherwise
a single reranker with `top_n = max(5, retrieval_top_k // 2)`. -/
def create_reranker_postprocessors (config : RerankerConfig) :
    Option (List SbertRerank) :=
  if !config.enabled then Option.none
  else some [⟨config.model, max 5 (config.retrieval_top_k / 2)⟩]

/-- Insert into a list sorted by descending score (stable). -/
def insertDesc (score : α → ℚ) (x : α) : List α → List α
  | [] => [x]
  | y :: ys => if score y ≤ score x then x :: y :: ys else y :: insertDesc score x ys

/-- Sort by descending score (insertion sort). -/
def sortByScoreDesc (score : α → ℚ) : List α → List α
  | [] => []
  | x :: xs => insertDesc score x (sortByScoreDesc score xs)

/-- Modelled from the spec: the external
`SentenceTransformerRerank.postprocess_nodes` (the llama-index sbert
reranker library, not part of this repository) scores each
(query, chunk) pair with a cross-encoder and "returns the top-N" —
i.e. reorders candidates by descending score and truncates to `top_n`.
The cross-encoder itself is abstracted as an arbitrary score
function. -/
def applySbertRerank (r : SbertRerank) (score : α → ℚ)
    (candidates : List α) : List α :=
  (sortByScoreDesc score candidates).take r.top_n

/-! ## Source extraction (`_extract_sources`, services/rag.py)

A response node is modelled by the fields `_extract_sources` reads:
`node.get_content()`, `metadata.get('document_id')`,
`metadata.get('file_name', 'Unknown')` (via `.get` with default),
`metadata.get('path', '')`, and `node.score` (absent or a float;
`0.0` is falsy in Python). -/

structure Node where
  text : String
  document_id : Option String
  file_name : Option String
  path : Option String
  score : Option ℚ

/-- One entry of the returned `sources` list. -/
structure Source where
  document_id : Option String
  document_name : String
  excerpt : String
  full_text : String
  path : String
  score : Option ℚ

/-- Python string slicing `s[:n]` (by code points). -/
def pySlice (s : String) (n : Nat) : String :=
  String.mk (s.toList.take n)

/-- Python truthiness of `metadata.get('document_id')`:
`None` and `""` are falsy. -/
def truthyId : Option String → Bool
  | some d => decide (d ≠ "")
  | Option.none => false

/-- The dict built for one node: note the excerpt appends the
three-character string `"..."` when the text exceeds 200 characters. -/
def mkSource (n : Node) : Source :=
  { document_id := n.document_id
    document_name := n.file_name.getD "Unknown"
    excerpt := if n.text.length > 200 then pySlice n.text 200 ++ "..." else n.text
    full_text := n.text
    path := n.path.getD ""
    score := match n.score with
      | some q => if q = 0 then Option.none else some q
      | Option.none => Option.none }

/-- The `for node in source_nodes` loop of `_extract_sources`, with the
`seen_docs` set threaded through. -/
def extractSourcesAux : List Node → List String → List Source
  | [], _ => []
  | n :: rest, seen =>
      match n.document_id with
      | some d =>
          if d ≠ "" ∧ seen.contains d then extractSourcesAux rest seen
          else mkSource n :: extractSourcesAux rest (if d ≠ "" then d :: seen else seen)
      | Option.none => mkSource n :: extractSourcesAux rest seen

/-- `_extract_sources(source_nodes)`. -/
def extract_sources (nodes : List Node) : List Source :=
  extractSourcesAux nodes []

/-- Stated from the spec's words, for comparison with the code: keep
the first chunk of each document id, preserving order (chunks without a
document id are kept). -/
def dedupFirstByDocAux : List Node → List String → List Node
  | [], _ => []
  | n :: rest, seen =>
      match n.document_id with
      | some d =>
          if seen.contains d then dedupFirstByDocAux rest seen
          else n :: dedupFirstByDocAux rest (d :: seen)
      | Option.none => n :: dedupFirstByDocAux rest seen

/-- Spec-side deduplication by document id. -/
def dedupFirstByDoc (nodes : List Node) : List Node :=
  dedupFirstByDocAux nodes []

/-! ## Vector store: chunk stamping, deletion, duplicate check
(tasks.py / main.py chunk loop; infrastructure/database/chroma.py
`delete_document`, `check_documents_exist`)

A stored chunk is modelled by its id and the metadata fields these
functions read.  Fields absent from a chunk's metadata are `none`. -/

structure Chunk where
  id : String
  text : String
  document_id : Option String
  chunk_index : Option Nat
  file_hash : Option String
  file_name : Option String
  file_size_bytes : Option Int
deriving DecidableEq

/-- The ChromaDB collection content. -/
abbrev VectorStore := List Chunk

/-- The per-node stamping of the ingestion loop
(`for i, node in enumerate(nodes)` in `process_document_task` /
`process_and_index_document`): `chunk_index = i`,
`document_id = doc_id`, `node.id_ = f"{doc_id}-chunk-{i}"`; the other
metadata comes from `extract_metadata` for the whole document. -/
def stampChunk (doc_id : String) (i : Nat) (text : String)
    (fh fn : Option String) (fs : Option Int) : Chunk :=
  ⟨doc_id ++ "-chunk-" ++ toString i, text, some doc_id, some i, fh, fn, fs⟩

/-- Stamp a list of chunk texts with consecutive indices from `i`. -/
def stampFrom (doc_id : String) (fh fn : Option String) (fs : Option Int) :
    Nat → List String → List Chunk
  | _, [] => []
  | i, t :: ts => stampChunk doc_id i t fh fn fs :: stampFrom doc_id fh fn fs (i + 1) ts

/-- The full stamped node list of one document (indices from 0). -/
def stampNodes (doc_id : String) (texts : List String)
    (fh fn : Option String) (fs : Option Int) : List Chunk :=
  stampFrom doc_id fh fn fs 0 texts

/-- `delete_document(index, document_id)`: fetch the ids of the chunks
whose metadata `document_id` matches, and delete by those ids (no call
when nothing matches). -/
def delete_document (store : VectorStore) (document_id : String) : VectorStore :=
  if ((store.filter (fun c => c.document_id == some document_id)).map
      (fun c => c.id)).isEmpty then store
  else store.filter (fun c =>
    !(((store.filter (fun c => c.document_id == some document_id)).map
      (fun c => c.id)).contains c.id))

/-- `DELETE /documents/{document_id}` (main.py `delete_document_by_id`):
always replies `status = "success"` when `delete_document` returns. -/
structure DeleteResponse where
  status : String
  message : String

def delete_document_by_id (store : VectorStore) (document_id : String) :
    VectorStore × DeleteResponse :=
  (delete_document store document_id,
   ⟨"success", "Document " ++ document_id ++ " deleted successfully"⟩)

/-- One operation the ingestion/deletion flow performs on the store.
`placed` is the number of chunks `add_documents` inserted before it
raised (equal to `texts.length` on success): inserts are sequential,
one chunk at a time, so a failed task leaves a prefix of its stamped
chunks behind. -/
inductive StoreOp where
  | upload (doc_id : String) (texts : List String)
      (fh fn : Option String) (fs : Option Int) (placed : Nat) : StoreOp
  | delete (doc_id : String) : StoreOp

def applyOp (store : VectorStore) : StoreOp → VectorStore
  | .upload did texts fh fn fs placed => store ++ (stampNodes did texts fh fn fs).take placed
  | .delete did => delete_document store did

def applyOps (store : VectorStore) (ops : List StoreOp) : VectorStore :=
  ops.foldl applyOp store

/-- Pre-conditions the worker guarantees for a run of operations:
each upload's `doc_id` is `str(uuid.uuid4())` — a fresh identifier of
exactly 36 characters, never equal to the document id of any chunk
already in the store. -/
def freshOk : VectorStore → List StoreOp → Bool
  | _, [] => true
  | store, op :: ops =>
      (match op with
       | .upload did _ _ _ _ _ =>
          decide (did.length = 36) && store.all (fun c => !(c.document_id == some did))
       | .delete _ => true) && freshOk (applyOp store op) ops

/-- C7's per-chunk invariant: the id is the document id and chunk index
joined by `-chunk-`. -/
def ChunkWellFormed (c : Chunk) : Prop :=
  ∃ d i, c.document_id = some d ∧ d.length = 36 ∧ c.chunk_index = some i ∧
    c.id = d ++ "-chunk-" ++ toString i

/-- C7's per-document invariant: the chunk indices of each document,
in store order, are exactly `0, 1, 2, ...`. -/
def DocIndicesEnumerated (store : VectorStore) : Prop :=
  ∀ d : String,
    ((store.filter (fun c => c.document_id == some d)).map (fun c => c.chunk_index)) =
      (List.range ((store.filter (fun c => c.document_id == some d)).length)).map some

def StoreInvariant (store : VectorStore) : Prop :=
  (∀ c ∈ store, ChunkWellFormed c) ∧ DocIndicesEnumerated store

/-! ### Duplicate check (`check_documents_exist`) -/

/-- The value stored in `hash_to_doc` for the first chunk carrying a
given file hash. -/
structure DocInfo where
  document_id : Option String
  file_name : String
  file_size_bytes : Int
deriving DecidableEq

def mkDocInfo (c : Chunk) : DocInfo :=
  ⟨c.document_id, c.file_name.getD "Unknown", c.file_size_bytes.getD 0⟩

/-- One step of the `hash_to_doc` construction:
`if file_hash and file_hash not in hash_to_doc: hash_to_doc[file_hash] = ...`
(`file_hash` is falsy when `None` or `""`). -/
def addHashEntry (m : List (String × DocInfo)) (c : Chunk) :
    List (String × DocInfo) :=
  match c.file_hash with
  | some h => if h ≠ "" ∧ (m.lookup h).isNone then m ++ [(h, mkDocInfo c)] else m
  | Option.none => m

def buildHashMap (chunks : List Chunk) : List (String × DocInfo) :=
  chunks.foldl addHashEntry []

/-- The per-file result: Python's
`{"exists": True, "document_id": ..., "existing_filename": ..., "reason": ...}`
or `{"exists": False}`. -/
inductive CheckResult where
  | found (document_id : Option String) (existing_filename : String)
      (reason : String) : CheckResult
  | absent : CheckResult
deriving DecidableEq

/-- The body of the `for file_check in file_checks` loop. -/
def checkOne (m : List (String × DocInfo)) (fhash : String) : CheckResult :=
  match m.lookup fhash with
  | some info =>
      .found info.document_id info.file_name
        ("Duplicate of '" ++ info.file_name ++ "' (already uploaded)")
  | Option.none => .absent

/-- `check_documents_exist(index, file_checks)`: each check is a
`(filename, hash)` pair; the result dict maps filename to its
`CheckResult`. -/
def check_documents_exist (chunks : List Chunk)
    (file_checks : List (String × String)) : List (String × CheckResult) :=
  file_checks.foldl
    (fun res fc => dictInsert fc.1 (checkOne (buildHashMap chunks) fc.2) res) []

/-! ## Lemmas about the dictionary model -/

theorem lookup_dictInsert (k : String) (v : α) (m : List (String × α)) :
    (dictInsert k v m).lookup k = some v := by
  induction m with
  | nil => simp [dictInsert]
  | cons p rest ih =>
      by_cases h : p.1 = k
      · simp [dictInsert, h]
      · have hne : (k == p.1) = false := by
          simpa using fun hk => h hk.symm
        simp [dictInsert, h, List.lookup, hne, ih]

theorem length_dictInsert (k : String) (v : α) (m : List (String × α)) :
    (dictInsert k v m).length ≤ m.length + 1 := by
  induction m with
  | nil => simp [dictInsert]
  | cons p rest ih =>
      by_cases h : p.1 = k
      · simp [dictInsert, h]
      · simpa [dictInsert, h] using ih

theorem initTasks_length (pairs : List (String × String)) :
    (initTasks pairs).length ≤ pairs.length := by
  suffices h : ∀ acc : List (String × TaskState),
      (pairs.foldl
        (fun acc p => dictInsert p.1 ⟨p.1, p.2, "pending", [], 0, 0⟩ acc) acc).length ≤
        acc.length + pairs.length by
    simpa [initTasks] using h []
  induction pairs with
  | nil => intro acc; simp
  | cons p rest ih =>
      intro acc
      calc (List.foldl _ (dictInsert p.1 ⟨p.1, p.2, "pending", [], 0, 0⟩ acc) rest).length
          ≤ (dictInsert p.1 ⟨p.1, p.2, "pending", [], 0, 0⟩ acc).length + rest.length :=
            ih _
        _ ≤ (acc.length + 1) + rest.length :=
            Nat.add_le_add_right (length_dictInsert _ _ _) _
        _ = acc.length + (p :: rest).length := by simp [Nat.add_comm, Nat.add_assoc,
            Nat.add_left_comm]

/-! ## Progress-store invariants -/

theorem map_fst_updateTaskEntry (ts : List (String × TaskState)) (task_id : String)
    (f : TaskState → TaskState) :
    (updateTaskEntry ts task_id f).map Prod.fst = ts.map Prod.fst := by
  induction ts with
  | nil => rfl
  | cons p ps ih =>
      by_cases h : p.1 = task_id <;> simp [updateTaskEntry, h] <;>
        simpa [updateTaskEntry] using ih

theorem taskKeys_updateBatchIfRegistered (b : BatchData) (w : ProgressWrite) :
    taskKeys (updateBatchIfRegistered b w) = taskKeys b := by
  unfold updateBatchIfRegistered updateBatchProgress
  by_cases h : dictMem w.task b.tasks <;>
    by_cases ht : isTerminal w.status <;>
      simp [h, ht, taskKeys, map_fst_updateTaskEntry]

theorem total_updateBatchIfRegistered (b : BatchData) (w : ProgressWrite) :
    (updateBatchIfRegistered b w).total = b.total := by
  unfold updateBatchIfRegistered updateBatchProgress
  by_cases h : dictMem w.task b.tasks <;>
    by_cases ht : isTerminal w.status <;> simp [h, ht]

theorem completed_updateBatchIfRegistered (b : BatchData) (w : ProgressWrite) :
    (updateBatchIfRegistered b w).completed =
      b.completed +
        (if isTerminal w.status && dictMem w.task b.tasks then 1 else 0) := by
  unfold updateBatchIfRegistered updateBatchProgress
  by_cases h : dictMem w.task b.tasks <;>
    by_cases ht : isTerminal w.status <;> simp [h, ht]

theorem taskKeys_applyWritesB (ws : List ProgressWrite) (b : BatchData) :
    taskKeys (applyWritesB ws b) = taskKeys b := by
  induction ws generalizing b with
  | nil => rfl
  | cons w ws ih =>
      calc taskKeys (applyWritesB ws (updateBatchIfRegistered b w))
          = taskKeys (updateBatchIfRegistered b w) := ih _
        _ = taskKeys b := taskKeys_updateBatchIfRegistered b w

theorem total_applyWritesB (ws : List ProgressWrite) (b : BatchData) :
    (applyWritesB ws b).total = b.total := by
  induction ws generalizing b with
  | nil => rfl
  | cons w ws ih =>
      calc (applyWritesB ws (updateBatchIfRegistered b w)).total
          = (updateBatchIfRegistered b w).total := ih _
        _ = b.total := total_updateBatchIfRegistered b w

theorem completed_applyWritesB (ws : List ProgressWrite) (b : BatchData) :
    (applyWritesB ws b).completed =
      b.completed +
        ((terminalWrites ws).filter
          (fun w => (taskKeys b).contains w.task)).length := by
  induction ws generalizing b with
  | nil => rfl
  | cons w ws ih =>
      have step : applyWritesB (w :: ws) b = applyWritesB ws (updateBatchIfRegistered b w) := rfl
      rw [step, ih, completed_updateBatchIfRegistered,
        taskKeys_updateBatchIfRegistered]
      have hdm : dictMem w.task b.tasks = (taskKeys b).contains w.task := rfl
      rw [hdm]
      by_cases ht : isTerminal w.status <;>
        by_cases hm : w.task ∈ taskKeys b <;>
          simp [terminalWrites, List.filter_cons, ht, hm, Nat.add_assoc,
            Nat.add_comm, Nat.add_left_comm]

theorem terminal_registered_count_le (keys : List String) (ws : List ProgressWrite)
    (h : ((terminalWrites ws).map (fun w => w.task)).Nodup) :
    ((terminalWrites ws).filter (fun w => keys.contains w.task)).length ≤ keys.length := by
  have hsub : ((terminalWrites ws).filter (fun w => keys.contains w.task)).Sublist
      (terminalWrites ws) := List.filter_sublist _
  have hmapsub := hsub.map (fun w => w.task)
  have hnd := h.sublist hmapsub
  have hss : (((terminalWrites ws).filter (fun w => keys.contains w.task)).map
      (fun w => w.task)) ⊆ keys := by
    intro x hx
    rcases List.mem_map.mp hx with ⟨w, hwmem, rfl⟩
    have hp := List.of_mem_filter hwmem
    simpa using hp
  have hlen := (hnd.subperm hss).length_le
  simpa using hlen

theorem applyWrites_lookup (ws : List ProgressWrite) (s : ProgressStore) (bid : String) :
    (applyWrites s bid ws).lookup (batchKey bid) =
      (s.lookup (batchKey bid)).map (applyWritesB ws) := by
  induction ws generalizing s with
  | nil => cases h : s.lookup (batchKey bid) <;> simp [applyWrites, applyWritesB, h]
  | cons w ws ih =>
      have hstep : applyWrites s bid (w :: ws) =
          applyWrites (update_task_progress s bid w.task w.status w.data) bid ws := rfl
      rw [hstep, ih]
      have hlk : (update_task_progress s bid w.task w.status w.data).lookup (batchKey bid) =
          (s.lookup (batchKey bid)).map (fun b => updateBatchIfRegistered b w) := by
        cases h : s.lookup (batchKey bid) with
        | none => simp [update_task_progress, h]
        | some b =>
            by_cases hm : dictMem w.task b.tasks
            · simp [update_task_progress, h, hm, updateBatchIfRegistered, lookup_dictInsert]
            · simp [update_task_progress, h, hm, updateBatchIfRegistered]
      rw [hlk]
      cases h : s.lookup (batchKey bid) <;> simp [applyWritesB]

/-- C1 (counterexample): `update_task_progress` enforces no state-machine
guard.  Replaying the write sequence that a queue-level retry produces for
one task — `processing`, `error` (attempt 1 fails), `processing` (retry),
`completed` — against a freshly created one-task batch yields
`completed = 2 > total = 1`, and after the third write the task's status
has regressed from the terminal `"error"` back to `"processing"`. -/
theorem C1_counterexample :
    (((applyWrites (create_batch [] "b" ["t"] ["f"]) "b"
        [⟨"t", "processing", []⟩, ⟨"t", "error", []⟩, ⟨"t", "processing", []⟩,
         ⟨"t", "completed", []⟩]).lookup (batchKey "b")).map
      (fun b => (b.completed, b.total)) = some (2, 1)) ∧
    (((applyWrites (create_batch [] "b" ["t"] ["f"]) "b"
        [⟨"t", "processing", []⟩, ⟨"t", "error", []⟩,
         ⟨"t", "processing", []⟩]).lookup (batchKey "b")).map
      (fun b => (b.tasks.lookup "t").map (fun t => t.status)) =
      some (some "processing")) := by
  constructor <;> rfl

/-- C1 (amended): `update_task_progress` increments `batch.completed` on
every terminal-status write and overwrites any previous status, so the
claimed invariant only holds for write sequences in which each task
receives at most one terminal-status write (i.e. absent queue-level
retries after a terminal write).  Under that discipline, starting from
`create_batch`, every reachable batch record satisfies
`completed ≤ total`. -/
theorem C1_completed_le_total
    (store : ProgressStore) (batch_id : String)
    (task_ids filenames : List String) (ws : List ProgressWrite)
    (hterm : ((terminalWrites ws).map (fun w => w.task)).Nodup) :
    ∀ b, (applyWrites (create_batch store batch_id task_ids filenames) batch_id ws).lookup
        (batchKey batch_id) = some b → b.completed ≤ b.total := by
  intro b hb
  have hcreate : (create_batch store batch_id task_ids filenames).lookup
      (batchKey batch_id) =
      some ⟨batch_id, task_ids.length, 0, 0, 0, initTasks (task_ids.zip filenames)⟩ :=
    lookup_dictInsert _ _ _
  rw [applyWrites_lookup, hcreate] at hb
  have hb' : applyWritesB ws
      ⟨batch_id, task_ids.length, 0, 0, 0, initTasks (task_ids.zip filenames)⟩ = b := by
    simpa using hb
  subst hb'
  rw [completed_applyWritesB, total_applyWritesB]
  have h1 := terminal_registered_count_le
    (taskKeys ⟨batch_id, task_ids.length, 0, 0, 0, initTasks (task_ids.zip filenames)⟩)
    ws hterm
  have h2 : (taskKeys
      ⟨batch_id, task_ids.length, 0, 0, 0, initTasks (task_ids.zip filenames)⟩).length ≤
      task_ids.length := by
    have hinit := initTasks_length (task_ids.zip filenames)
    have hz : (task_ids.zip filenames).length ≤ task_ids.length := by
      simp [List.length_zip]
    simpa [taskKeys] using le_trans hinit hz
  simpa using le_trans h1 h2

/-- Witness for `C1_completed_le_total` at a concrete two-task batch with
one terminal write per task. -/
theorem C1_completed_le_total_witness :
    ((terminalWrites [⟨"t1", "processing", []⟩, ⟨"t1", "completed", []⟩,
        ⟨"t2", "error", []⟩]).map (fun w => w.task)).Nodup ∧
    (∀ b, (applyWrites (create_batch [] "b" ["t1", "t2"] ["f1", "f2"]) "b"
        [⟨"t1", "processing", []⟩, ⟨"t1", "completed", []⟩,
         ⟨"t2", "error", []⟩]).lookup (batchKey "b") = some b →
      b.completed ≤ b.total) :=
  ⟨by decide,
   C1_completed_le_total [] "b" ["t1", "t2"] ["f1", "f2"]
     [⟨"t1", "processing", []⟩, ⟨"t1", "completed", []⟩, ⟨"t2", "error", []⟩]
     (by decide)⟩

/-- C9: every progress-store write addressed to an absent batch key
(never created or TTL-expired) or to a task id that is not registered in
the batch is a silent no-op: the embedded operations are total (no
exception path) and return the store unchanged. -/
theorem C9_absent_writes_are_noops
    (store : ProgressStore) (batch_id task_id status : String)
    (data : List (String × PyVal)) (n : Nat)
    (h : store.lookup (batchKey batch_id) = Option.none ∨
      ∀ b, store.lookup (batchKey batch_id) = some b → dictMem task_id b.tasks = false) :
    update_task_progress store batch_id task_id status data = store ∧
    set_task_total_chunks store batch_id task_id n = store ∧
    increment_task_chunk_progress store batch_id task_id = store := by
  rcases h with h | h
  · exact ⟨by simp [update_task_progress, h],
      by simp [set_task_total_chunks, h],
      by simp [increment_task_chunk_progress, h]⟩
  · cases hl : store.lookup (batchKey batch_id) with
    | none => exact ⟨by simp [update_task_progress, hl],
        by simp [set_task_total_chunks, hl],
        by simp [increment_task_chunk_progress, hl]⟩
    | some b =>
        have hm := h b hl
        exact ⟨by simp [update_task_progress, hl, hm],
          by simp [set_task_total_chunks, hl, hm],
          by simp [increment_task_chunk_progress, hl, hm]⟩

/-- Witness for `C9_absent_writes_are_noops`: writes against an empty
store (as after TTL expiry of every batch) leave it empty. -/
theorem C9_absent_writes_are_noops_witness :
    (([] : ProgressStore).lookup (batchKey "gone") = Option.none ∨
      ∀ b, ([] : ProgressStore).lookup (batchKey "gone") = some b →
        dictMem "t" b.tasks = false) ∧
    (update_task_progress [] "gone" "t" "completed" [] = [] ∧
     set_task_total_chunks [] "gone" "t" 7 = [] ∧
     increment_task_chunk_progress [] "gone" "t" = []) :=
  ⟨Or.inl rfl,
   C9_absent_writes_are_noops [] "gone" "t" "completed" [] 7 (Or.inl rfl)⟩

/-- C2 (code evaluation at the failing input): with the configured
`max_retries = 3`, a task whose first attempt succeeds (`raises = false`
everywhere) ends after attempt 0, yet the run never deletes the temp
file, because the `finally` block computes
`will_retry = retries < max_retries = true` without regard to success.
In general the file is deleted iff the first three attempts all raise —
not "after the last attempt, whether it succeeded or failed". -/
theorem C2_successful_task_keeps_temp_file :
    (tempFileDeleted 3 (fun _ => false) = false ∧
      lastAttempt 3 (fun _ => false) = 0) ∧
    (∀ raises : Nat → Bool,
      tempFileDeleted 3 raises = (raises 0 && raises 1 && raises 2)) := by
  refine ⟨by decide, ?_⟩
  intro raises
  cases h0 : raises 0 <;> cases h1 : raises 1 <;> cases h2 : raises 2 <;>
    simp [tempFileDeleted, lastAttempt, lastAttemptFrom, attemptDeletesTempFile,
      will_retry, h0, h1, h2, List.range_succ]

/-! ## Insert retry: evaluation and the claimed retry policy -/

theorem insertRetryGo_step (outcomes : Nat → InsertOutcome) (mr : Nat) (bd : ℚ)
    (a : Nat) (d : List ℚ) (h : a < mr) :
    insertRetryGo outcomes mr bd a d =
      match outcomes a with
      | .ok => ⟨a + 1, d, .success⟩
      | .err m =>
          if is_connection_error m && decide (a < mr - 1) then
            insertRetryGo outcomes mr bd (a + 1) (d ++ [bd * 2 ^ a])
          else ⟨a + 1, d, .raised m⟩ := by
  rw [insertRetryGo.eq_def]
  simp [h]

theorem insertRetry_eval (outcomes : Nat → InsertOutcome) :
    insert_node_with_retry outcomes 3 2 =
      match outcomes 0 with
      | .ok => ⟨1, [], .success⟩
      | .err m0 =>
        if is_connection_error m0 then
          match outcomes 1 with
          | .ok => ⟨2, [(2 : ℚ)], .success⟩
          | .err m1 =>
            if is_connection_error m1 then
              match outcomes 2 with
              | .ok => ⟨3, [(2 : ℚ), 4], .success⟩
              | .err m2 => ⟨3, [(2 : ℚ), 4], .raised m2⟩
            else ⟨2, [(2 : ℚ)], .raised m1⟩
        else ⟨1, [], .raised m0⟩ := by
  unfold insert_node_with_retry
  rw [insertRetryGo_step outcomes 3 2 0 [] (by norm_num)]
  cases h0 : outcomes 0 with
  | ok => rfl
  | err m0 =>
      by_cases hc0 : is_connection_error m0
      · have e1 : ([] : List ℚ) ++ [(2 : ℚ) * 2 ^ 0] = [(2 : ℚ)] := by norm_num
        simp only [hc0, Bool.true_and, Nat.reduceSub, decide_True, if_true, e1,
          show (0 : ℕ) < 3 - 1 from by norm_num]
        rw [insertRetryGo_step outcomes 3 2 1 [(2 : ℚ)] (by norm_num)]
        cases h1 : outcomes 1 with
        | ok => rfl
        | err m1 =>
            by_cases hc1 : is_connection_error m1
            · have e2 : [(2 : ℚ)] ++ [(2 : ℚ) * 2 ^ 1] = [(2 : ℚ), 4] := by norm_num
              simp only [hc1, Bool.true_and, decide_True, if_true, e2,
                show (1 : ℕ) < 3 - 1 from by norm_num]
              rw [insertRetryGo_step outcomes 3 2 2 [(2 : ℚ), 4] (by norm_num)]
              cases h2 : outcomes 2 with
              | ok => rfl
              | err m2 =>
                  have hcond : (is_connection_error m2 &&
                      decide ((2 : ℕ) < 3 - 1)) = false := by
                    simp
                  simp [hcond]
            · simp [hc1]
      · simp [hc0]

/-- C3: per-chunk inserts run at most 3 attempts; every backoff sleep of
a run is exactly `2.0 * 2**attempt` seconds (so the delays are
`2.0, 4.0, ...`: base 2.0, doubling per attempt); when every attempt
raises a connection-class error the loop performs the full 3 attempts
and then re-raises; and a non-connection-class error reached at any
attempt is re-raised immediately, with no further attempts and no sleep
after it. -/
theorem C3_insert_retry_policy (outcomes : Nat → InsertOutcome) :
    (insert_node_with_retry outcomes 3 2).attempts ≤ 3 ∧
    (insert_node_with_retry outcomes 3 2).delays =
      (List.range ((insert_node_with_retry outcomes 3 2).attempts - 1)).map
        (fun i => (2 : ℚ) * 2 ^ i) ∧
    ((∀ j, j < 3 → ∃ m, outcomes j = InsertOutcome.err m ∧
        is_connection_error m = true) →
      ∃ m, outcomes 2 = InsertOutcome.err m ∧
        insert_node_with_retry outcomes 3 2 = ⟨3, [(2 : ℚ), 4], .raised m⟩) ∧
    (∀ i, i < 3 →
      (∀ j, j < i → ∃ m, outcomes j = InsertOutcome.err m ∧
        is_connection_error m = true) →
      ∀ m, outcomes i = InsertOutcome.err m → is_connection_error m = false →
        insert_node_with_retry outcomes 3 2 =
          ⟨i + 1, (List.range i).map (fun j => (2 : ℚ) * 2 ^ j), .raised m⟩) := by
  refine ⟨?_, ?_, ?_, ?_⟩
  · rw [insertRetry_eval]
    cases outcomes 0 <;> cases outcomes 1 <;> cases outcomes 2 <;> dsimp only <;>
      first
        | (split_ifs <;> norm_num)
        | norm_num
  · rw [insertRetry_eval]
    cases outcomes 0 <;> cases outcomes 1 <;> cases outcomes 2 <;> dsimp only <;>
      first
        | (split_ifs <;> norm_num [List.range_succ])
        | norm_num [List.range_succ]
  · intro h
    obtain ⟨m0, hm0, hc0⟩ := h 0 (by norm_num)
    obtain ⟨m1, hm1, hc1⟩ := h 1 (by norm_num)
    obtain ⟨m2, hm2, hc2⟩ := h 2 (by norm_num)
    exact ⟨m2, hm2, by rw [insertRetry_eval]; simp [hm0, hm1, hm2, hc0, hc1]⟩
  · intro i hi hprev m hm hcm
    interval_cases i
    · rw [insertRetry_eval]
      simp [hm, hcm]
    · obtain ⟨m0, hm0, hc0⟩ := hprev 0 (by norm_num)
      rw [insertRetry_eval]
      norm_num [hm0, hc0, hm, hcm, List.range_succ]
    · obtain ⟨m0, hm0, hc0⟩ := hprev 0 (by norm_num)
      obtain ⟨m1, hm1, hc1⟩ := hprev 1 (by norm_num)
      rw [insertRetry_eval]
      norm_num [hm0, hc0, hm1, hc1, hm, List.range_succ]

/-- Witness for `C3_insert_retry_policy`: a run in which every attempt
raises "connection error" performs exactly 3 attempts with backoff
delays 2.0s then 4.0s and re-raises the last error. -/
theorem C3_insert_retry_policy_witness :
    (∀ j, j < 3 → ∃ m, (fun _ : Nat => InsertOutcome.err "connection error") j =
        InsertOutcome.err m ∧ is_connection_error m = true) ∧
    (∃ m, (fun _ : Nat => InsertOutcome.err "connection error") 2 =
        InsertOutcome.err m ∧
      insert_node_with_retry (fun _ => InsertOutcome.err "connection error") 3 2 =
        ⟨3, [(2 : ℚ), 4], InsertResult.raised m⟩) :=
  ⟨fun _ _ => ⟨"connection error", rfl, by decide⟩,
   (C3_insert_retry_policy (fun _ => InsertOutcome.err "connection error")).2.2.1
     (fun _ _ => ⟨"connection error", rfl, by decide⟩)⟩

/-! ## Metadata sanitization (C5) -/

theorem mem_dictInsert (k : String) (v : α) (m : List (String × α))
    (p : String × α) (hp : p ∈ dictInsert k v m) : p = (k, v) ∨ p ∈ m := by
  induction m with
  | nil => simpa [dictInsert] using hp
  | cons q rest ih =>
      by_cases h : q.1 = k
      · simp [dictInsert, h] at hp
        rcases hp with hp | hp
        · left; simp [hp]
        · right; simp [hp]
      · simp [dictInsert, h] at hp
        rcases hp with hp | hp
        · right; simp [hp]
        · rcases ih hp with hp' | hp'
          · left; exact hp'
          · right; simp [hp']

theorem cleanStep_preserves_prim (acc : List (String × PyVal)) (kv : String × PyVal)
    (hacc : ∀ p ∈ acc, p.2.isPrim = true) :
    ∀ p ∈ cleanStep acc kv, p.2.isPrim = true := by
  intro p hp
  rcases kv with ⟨key, value⟩
  cases value with
  | none => rcases mem_dictInsert _ _ _ _ hp with h | h
            · simp [h, PyVal.isPrim]
            · exact hacc p h
  | str s => rcases mem_dictInsert _ _ _ _ hp with h | h
             · simp [h, PyVal.isPrim]
             · exact hacc p h
  | int n => rcases mem_dictInsert _ _ _ _ hp with h | h
             · simp [h, PyVal.isPrim]
             · exact hacc p h
  | bool b => rcases mem_dictInsert _ _ _ _ hp with h | h
              · simp [h, PyVal.isPrim]
              · exact hacc p h
  | float r => rcases mem_dictInsert _ _ _ _ hp with h | h
               · simp [h, PyVal.isPrim]
               · exact hacc p h
  | dict d =>
      simp only [cleanStep] at hp
      rcases hfm : d.lookup "mimetype" with _ | sub2 <;>
        rcases hff : d.lookup "filename" with _ | sub1 <;>
          simp only [hfm, hff] at hp
      · exact hacc p hp
      · rcases mem_dictInsert _ _ _ _ hp with h | h
        · simp [h, PyVal.isPrim]
        · exact hacc p h
      · rcases mem_dictInsert _ _ _ _ hp with h | h
        · simp [h, PyVal.isPrim]
        · exact hacc p h
      · rcases mem_dictInsert _ _ _ _ hp with h | h
        · simp [h, PyVal.isPrim]
        · rcases mem_dictInsert _ _ _ _ h with h' | h'
          · simp [h', PyVal.isPrim]
          · exact hacc p h'
  | list l => exact hacc p hp
  | other s => rcases mem_dictInsert _ _ _ _ hp with h | h
               · simp [h, PyVal.isPrim]
               · exact hacc p h

theorem clean_foldl_prim (md : List (String × PyVal)) :
    ∀ acc, (∀ p ∈ acc, p.2.isPrim = true) →
      ∀ p ∈ md.foldl cleanStep acc, p.2.isPrim = true := by
  induction md with
  | nil => intro acc hacc p hp; exact hacc p hp
  | cons kv rest ih =>
      intro acc hacc p hp
      exact ih (cleanStep acc kv) (cleanStep_preserves_prim acc kv hacc) p hp

theorem dictInsert_of_not_mem (k : String) (v : α) (m : List (String × α))
    (h : k ∉ m.map Prod.fst) : dictInsert k v m = m ++ [(k, v)] := by
  induction m with
  | nil => rfl
  | cons q rest ih =>
      have h1 : q.1 ≠ k := by
        intro he; exact h (by simp [he])
      have h2 : k ∉ rest.map Prod.fst := by
        intro he; exact h (by simp [he])
      simp [dictInsert, h1, ih h2]

theorem cleanStep_prim_eq_insert (acc : List (String × PyVal)) (p : String × PyVal)
    (hprim : p.2.isPrim = true) : cleanStep acc p = dictInsert p.1 p.2 acc := by
  rcases p with ⟨k, v⟩
  cases v <;> simp_all [cleanStep, PyVal.isPrim]

theorem clean_prim_identity (md : List (String × PyVal)) :
    ∀ acc, (∀ p ∈ md, p.2.isPrim = true) → (md.map Prod.fst).Nodup →
      (∀ k ∈ md.map Prod.fst, k ∉ acc.map Prod.fst) →
      md.foldl cleanStep acc = acc ++ md := by
  induction md with
  | nil => intro acc _ _ _; simp
  | cons p rest ih =>
      intro acc hprim hnd hdisj
      have hp : p.2.isPrim = true := hprim p (by simp)
      have hk : p.1 ∉ acc.map Prod.fst := hdisj p.1 (by simp)
      have hstep : cleanStep acc p = acc ++ [(p.1, p.2)] := by
        rw [cleanStep_prim_eq_insert acc p hp, dictInsert_of_not_mem _ _ _ hk]
      have hnd' : (rest.map Prod.fst).Nodup := by
        simpa using hnd.of_cons
      have hknotin : p.1 ∉ rest.map Prod.fst := by
        have := hnd
        simp only [List.map_cons, List.nodup_cons] at this
        exact this.1
      have hdisj' : ∀ k ∈ rest.map Prod.fst, k ∉ (acc ++ [(p.1, p.2)]).map Prod.fst := by
        intro k hkmem
        simp only [List.map_append, List.mem_append]
        rintro (hin | hin)
        · exact hdisj k (by simp [hkmem]) hin
        · simp at hin
          subst hin
          exact hknotin hkmem
      calc (p :: rest).foldl cleanStep acc = rest.foldl cleanStep (cleanStep acc p) := rfl
        _ = rest.foldl cleanStep (acc ++ [(p.1, p.2)]) := by rw [hstep]
        _ = (acc ++ [(p.1, p.2)]) ++ rest := ih _ (fun q hq => hprim q (by simp [hq])) hnd' hdisj'
        _ = acc ++ (p :: rest) := by simp

/-- C5 (counterexample): dict-valued metadata is not flattened
key-by-key — a dict value whose keys are neither `filename` nor
`mimetype` is dropped entirely, so `{"origin": {"a": 1}}` sanitizes to
the empty mapping rather than to `{"origin_a": 1}`. -/
theorem C5_counterexample :
    clean_metadata_for_chroma [("origin", PyVal.dict [("a", PyVal.int 1)])] = [] ∧
    (clean_metadata_for_chroma
      [("origin", PyVal.dict [("a", PyVal.int 1)])]).lookup "origin_a" =
      Option.none :=
  ⟨rfl, rfl⟩

/-- C5 (amended): the sanitizer keeps primitive values unchanged
(identity on duplicate-free all-primitive mappings), flattens a dict
value only through its `filename` and `mimetype` keys (as stringified
`{key}_filename` / `{key}_mimetype` entries, all other dict entries
being dropped), drops every list value (an appended list-valued entry
contributes nothing to the output), stringifies every other value (an
appended `other` entry contributes its key bound to the `str()` of the
value) — and consequently every value it outputs is a primitive. -/
theorem C5_sanitizer (md : List (String × PyVal)) :
    (∀ p ∈ clean_metadata_for_chroma md, p.2.isPrim = true) ∧
    ((∀ p ∈ md, p.2.isPrim = true) → (md.map Prod.fst).Nodup →
      clean_metadata_for_chroma md = md) ∧
    (∀ (k : String) (d : List (String × PyVal)),
      ∀ p ∈ clean_metadata_for_chroma [(k, PyVal.dict d)],
        p.1 = k ++ "_filename" ∨ p.1 = k ++ "_mimetype") ∧
    (∀ (k : String) (l : List PyVal),
      clean_metadata_for_chroma (md ++ [(k, PyVal.list l)]) =
        clean_metadata_for_chroma md) ∧
    (∀ (k s : String),
      clean_metadata_for_chroma (md ++ [(k, PyVal.other s)]) =
        dictInsert k (PyVal.str s) (clean_metadata_for_chroma md)) := by
  refine ⟨?_, ?_, ?_, ?_, ?_⟩
  · intro p hp
    exact clean_foldl_prim md [] (by simp) p hp
  · intro hprim hnd
    have := clean_prim_identity md [] hprim hnd (by simp)
    simpa [clean_metadata_for_chroma] using this
  · intro k d p hp
    simp only [clean_metadata_for_chroma, List.foldl_cons, List.foldl_nil,
      cleanStep] at hp
    rcases hfm : d.lookup "mimetype" with _ | sub2 <;>
      rcases hff : d.lookup "filename" with _ | sub1 <;>
        simp only [hfm, hff] at hp
    · simp at hp
    · rcases mem_dictInsert _ _ _ _ hp with h | h
      · left; simp [h]
      · simp at h
    · rcases mem_dictInsert _ _ _ _ hp with h | h
      · right; simp [h]
      · simp at h
    · rcases mem_dictInsert _ _ _ _ hp with h | h
      · right; simp [h]
      · rcases mem_dictInsert _ _ _ _ h with h' | h'
        · left; simp [h']
        · simp at h'
  · intro k l
    rw [clean_metadata_for_chroma, List.foldl_append]
    rfl
  · intro k s
    rw [clean_metadata_for_chroma, List.foldl_append]
    rfl

/-- Witness for `C5_sanitizer`: an all-primitive metadata mapping with
distinct keys is returned unchanged. -/
theorem C5_sanitizer_witness :
    (∀ p ∈ [("file_name", PyVal.str "a.pdf"), ("page_count", PyVal.int 3)],
      p.2.isPrim = true) ∧
    (([("file_name", PyVal.str "a.pdf"),
       ("page_count", PyVal.int 3)].map Prod.fst).Nodup) ∧
    clean_metadata_for_chroma
      [("file_name", PyVal.str "a.pdf"), ("page_count", PyVal.int 3)] =
      [("file_name", PyVal.str "a.pdf"), ("page_count", PyVal.int 3)] :=
  ⟨by decide, by decide, (C5_sanitizer _).2.1 (by decide) (by decide)⟩

/-! ## Reranker top-n (C4) and source extraction (C6) -/

theorem extractSourcesAux_length_le (nodes : List Node) :
    ∀ seen, (extractSourcesAux nodes seen).length ≤ nodes.length := by
  induction nodes with
  | nil => intro seen; simp [extractSourcesAux]
  | cons n rest ih =>
      intro seen
      cases hd : n.document_id with
      | none =>
          simpa [extractSourcesAux, hd] using Nat.succ_le_succ (ih seen)
      | some d =>
          by_cases hc : d ≠ "" ∧ seen.contains d
          · simp only [extractSourcesAux, hd, if_pos hc]
            exact le_trans (ih seen) (Nat.le_succ _)
          · simp only [extractSourcesAux, hd, if_neg hc, List.length_cons]
            exact Nat.succ_le_succ (ih _)

/-- C4: when reranking is enabled, the postprocessor is constructed with
`top_n = max(5, retrieval_top_k // 2)`; whatever the cross-encoder's
scores, it returns at most `top_n` reranked candidates, and hence the
sources extracted from the reranked nodes (before document-level
deduplication) number at most `max(5, k // 2)`. -/
theorem C4_reranker_top_n (config : RerankerConfig) (h : config.enabled = true) :
    create_reranker_postprocessors config =
      some [⟨config.model, max 5 (config.retrieval_top_k / 2)⟩] ∧
    (∀ (α : Type) (score : α → ℚ) (candidates : List α) (r : SbertRerank),
      create_reranker_postprocessors config = some [r] →
      (applySbertRerank r score candidates).length ≤
        max 5 (config.retrieval_top_k / 2)) ∧
    (∀ (score : Node → ℚ) (candidates : List Node) (r : SbertRerank),
      create_reranker_postprocessors config = some [r] →
      (extract_sources (applySbertRerank r score candidates)).length ≤
        max 5 (config.retrieval_top_k / 2)) := by
  have hcreate : create_reranker_postprocessors config =
      some [⟨config.model, max 5 (config.retrieval_top_k / 2)⟩] := by
    simp [create_reranker_postprocessors, h]
  have htake : ∀ (α : Type) (score : α → ℚ) (candidates : List α) (r : SbertRerank),
      create_reranker_postprocessors config = some [r] →
      (applySbertRerank r score candidates).length ≤
        max 5 (config.retrieval_top_k / 2) := by
    intro α score candidates r hr
    rw [hcreate] at hr
    have hrr : r = ⟨config.model, max 5 (config.retrieval_top_k / 2)⟩ := by
      simpa using hr.symm
    subst hrr
    simp only [applySbertRerank, List.length_take]
    exact Nat.min_le_left _ _
  refine ⟨hcreate, htake, ?_⟩
  intro score candidates r hr
  exact le_trans (extractSourcesAux_length_le _ [])
    (htake Node score candidates r hr)

/-- Witness for `C4_reranker_top_n`: the default configuration
(`k = 10`, reranker enabled) yields `top_n = 5`, and 12 candidates are
cut down to at most 5. -/
theorem C4_reranker_top_n_witness :
    (RerankerConfig.mk true "cross-encoder/ms-marco-MiniLM-L-6-v2" 10).enabled = true ∧
    create_reranker_postprocessors
      ⟨true, "cross-encoder/ms-marco-MiniLM-L-6-v2", 10⟩ =
      some [⟨"cross-encoder/ms-marco-MiniLM-L-6-v2", 5⟩] ∧
    (applySbertRerank ⟨"cross-encoder/ms-marco-MiniLM-L-6-v2", 5⟩
        (fun n : ℚ => n) ((List.range 12).map (fun i => (i : ℚ)))).length ≤ 5 :=
  ⟨rfl,
   (C4_reranker_top_n ⟨true, "cross-encoder/ms-marco-MiniLM-L-6-v2", 10⟩ rfl).1,
   (C4_reranker_top_n ⟨true, "cross-encoder/ms-marco-MiniLM-L-6-v2", 10⟩ rfl).2.1
     ℚ (fun n => n) ((List.range 12).map (fun i => (i : ℚ)))
     ⟨"cross-encoder/ms-marco-MiniLM-L-6-v2", 5⟩
     (C4_reranker_top_n ⟨true, "cross-encoder/ms-marco-MiniLM-L-6-v2", 10⟩ rfl).1⟩

theorem extract_eq_dedup (nodes : List Node) :
    ∀ seen, (∀ n ∈ nodes, truthyId n.document_id = true) →
      extractSourcesAux nodes seen = (dedupFirstByDocAux nodes seen).map mkSource := by
  induction nodes with
  | nil => intro seen _; rfl
  | cons n rest ih =>
      intro seen htruthy
      cases hd : n.document_id with
      | none =>
          have := htruthy n (by simp)
          simp [truthyId, hd] at this
      | some d =>
          have hdne : d ≠ "" := by
            have := htruthy n (by simp)
            simpa [truthyId, hd] using this
          have htail : ∀ m ∈ rest, truthyId m.document_id = true := by
            intro m hm; exact htruthy m (by simp [hm])
          by_cases hc : d ∈ seen
          · simp [extractSourcesAux, dedupFirstByDocAux, hd, hdne, hc, ih _ htail]
          · simp [extractSourcesAux, dedupFirstByDocAux, hd, hdne, hc, ih _ htail]

theorem dedupAux_sublist (nodes : List Node) :
    ∀ seen, (dedupFirstByDocAux nodes seen).Sublist nodes := by
  induction nodes with
  | nil => intro seen; simp [dedupFirstByDocAux]
  | cons n rest ih =>
      intro seen
      cases hd : n.document_id with
      | none => simpa [dedupFirstByDocAux, hd] using (ih seen).cons₂ n
      | some d =>
          by_cases hc : d ∈ seen
          · simpa [dedupFirstByDocAux, hd, hc] using (ih seen).cons n
          · simpa [dedupFirstByDocAux, hd, hc] using (ih (d :: seen)).cons₂ n

theorem extract_nodup_aux (nodes : List Node) :
    ∀ seen, (∀ n ∈ nodes, truthyId n.document_id = true) →
      ((extractSourcesAux nodes seen).map (fun s => s.document_id)).Nodup ∧
      (∀ s ∈ extractSourcesAux nodes seen, ∀ d, s.document_id = some d →
        d ∉ seen) := by
  induction nodes with
  | nil => intro seen _; simp [extractSourcesAux]
  | cons n rest ih =>
      intro seen htruthy
      have htail : ∀ m ∈ rest, truthyId m.document_id = true := by
        intro m hm; exact htruthy m (by simp [hm])
      cases hd : n.document_id with
      | none =>
          have := htruthy n (by simp)
          simp [truthyId, hd] at this
      | some d =>
          have hdne : d ≠ "" := by
            have := htruthy n (by simp)
            simpa [truthyId, hd] using this
          by_cases hc : d ∈ seen
          · have hstep : extractSourcesAux (n :: rest) seen =
                extractSourcesAux rest seen := by
              simp [extractSourcesAux, hd, hdne, hc]
            rw [hstep]
            obtain ⟨ihnd, ihseen⟩ := ih seen htail
            exact ⟨ihnd, fun s hs => ihseen s hs⟩
          · have hstep : extractSourcesAux (n :: rest) seen =
                mkSource n :: extractSourcesAux rest (d :: seen) := by
              simp [extractSourcesAux, hd, hdne, hc]
            rw [hstep]
            obtain ⟨ihnd, ihseen⟩ := ih (d :: seen) htail
            constructor
            · simp only [List.map_cons, List.nodup_cons]
              refine ⟨?_, ihnd⟩
              intro hmem
              rcases List.mem_map.mp hmem with ⟨s, hs, hds⟩
              have hdid : s.document_id = some d := by
                have hmk : (mkSource n).document_id = some d := by
                  simp [mkSource, hd]
                rw [hds, hmk]
              exact absurd (List.mem_cons_self d seen) (ihseen s hs d hdid)
            · intro s hs d' hd'
              rcases List.mem_cons.mp hs with hs | hs
              · have hdd : d' = d := by
                  rw [hs] at hd'
                  simp [mkSource, hd] at hd'
                  exact hd'.symm
                subst hdd
                exact hc
              · have := ihseen s hs d' hd'
                intro hmem
                exact this (by simp [hmem])

theorem extract_excerpt_aux (nodes : List Node) :
    ∀ seen, ∀ s ∈ extractSourcesAux nodes seen,
      s.excerpt = if s.full_text.length > 200
        then pySlice s.full_text 200 ++ "..." else s.full_text := by
  induction nodes with
  | nil => intro seen s hs; simp [extractSourcesAux] at hs
  | cons n rest ih =>
      intro seen s hs
      cases hd : n.document_id with
      | none =>
          simp only [extractSourcesAux, hd] at hs
          rcases List.mem_cons.mp hs with hs | hs
          · subst hs; rfl
          · exact ih seen s hs
      | some d =>
          by_cases hc : d ≠ "" ∧ seen.contains d
          · simp only [extractSourcesAux, hd, if_pos hc] at hs
            exact ih seen s hs
          · simp only [extractSourcesAux, hd, if_neg hc] at hs
            rcases List.mem_cons.mp hs with hs | hs
            · subst hs; rfl
            · exact ih _ s hs

set_option maxRecDepth 4000 in
/-- C6 (counterexample): for a 201-character chunk text the produced
excerpt is the first 200 characters followed by the three-character
ASCII string `"..."`, which differs from the first 200 characters
followed by the single character `"…"` that the claim states. -/
theorem C6_counterexample :
    (extract_sources [⟨String.mk (List.replicate 201 'a'), some "d", some "f",
        some "p", Option.none⟩]).map (fun s => s.excerpt) =
      [String.mk (List.replicate 200 'a') ++ "..."] ∧
    String.mk (List.replicate 200 'a') ++ "..." ≠
      String.mk (List.replicate 200 'a') ++ "…" := by
  constructor
  · rfl
  · decide

/-- C6 (amended): for source nodes that all carry a non-empty
document id, the sources list is the first chunk of each document in
rerank order (a sublist of the input, deduplicated by `document_id`),
and each entry's excerpt is the first 200 characters of the chunk text
followed by `"..."` (three ASCII periods) when the text is longer than
200 characters, and the full text otherwise. -/
theorem C6_sources_shape (nodes : List Node)
    (htruthy : ∀ n ∈ nodes, truthyId n.document_id = true) :
    extract_sources nodes = (dedupFirstByDoc nodes).map mkSource ∧
    (dedupFirstByDoc nodes).Sublist nodes ∧
    ((extract_sources nodes).map (fun s => s.document_id)).Nodup ∧
    (∀ s ∈ extract_sources nodes,
      s.excerpt = if s.full_text.length > 200
        then pySlice s.full_text 200 ++ "..." else s.full_text) :=
  ⟨extract_eq_dedup nodes [] htruthy,
   dedupAux_sublist nodes [],
   (extract_nodup_aux nodes [] htruthy).1,
   extract_excerpt_aux nodes []⟩

/-- Witness for `C6_sources_shape`: three nodes over two documents
(first document repeated) produce two deduplicated sources in order. -/
theorem C6_sources_shape_witness :
    (∀ n ∈ [(⟨"t1", some "d1", some "f1", some "", Option.none⟩ : Node),
            ⟨"t2", some "d2", some "f2", some "", Option.none⟩,
            ⟨"t3", some "d1", some "f1", some "", Option.none⟩],
      truthyId n.document_id = true) ∧
    extract_sources
        [⟨"t1", some "d1", some "f1", some "", Option.none⟩,
         ⟨"t2", some "d2", some "f2", some "", Option.none⟩,
         ⟨"t3", some "d1", some "f1", some "", Option.none⟩] =
      (dedupFirstByDoc
        [⟨"t1", some "d1", some "f1", some "", Option.none⟩,
         ⟨"t2", some "d2", some "f2", some "", Option.none⟩,
         ⟨"t3", some "d1", some "f1", some "", Option.none⟩]).map mkSource :=
  ⟨by decide,
   (C6_sources_shape _ (by decide)).1⟩

/-! ## Document deletion (C10) -/

/-- C10: `delete_document` on a document id with no matching chunk
issues no delete and returns the store unchanged; deleting twice equals
deleting once; and the `DELETE /documents/{id}` handler replies
`status = "success"` whatever the id. -/
theorem C10_delete_document (store : VectorStore) (document_id : String) :
    ((∀ c ∈ store, c.document_id ≠ some document_id) →
      delete_document store document_id = store) ∧
    delete_document (delete_document store document_id) document_id =
      delete_document store document_id ∧
    (delete_document_by_id store document_id).2.status = "success" := by
  refine ⟨?_, ?_, rfl⟩
  · intro h
    have hf : store.filter (fun c => c.document_id == some document_id) = [] := by
      rw [List.filter_eq_nil_iff]
      intro c hc
      simp [h c hc]
    simp [delete_document, hf]
  · have key : ∀ t : VectorStore,
        t.filter (fun c => c.document_id == some document_id) = [] →
        delete_document t document_id = t := by
      intro t ht
      simp [delete_document, ht]
    by_cases hids : ((store.filter
        (fun c => c.document_id == some document_id)).map (fun c => c.id)).isEmpty
    · have hfe : store.filter (fun c => c.document_id == some document_id) = [] := by
        rwa [List.isEmpty_iff, List.map_eq_nil_iff] at hids
      rw [key store hfe]
      exact key store hfe
    · have h1 : delete_document store document_id =
          store.filter (fun c =>
            !(((store.filter (fun c => c.document_id == some document_id)).map
              (fun c => c.id)).contains c.id)) := by
        simp only [delete_document]
        rw [if_neg hids]
      have h2 : ((delete_document store document_id).filter
          (fun c => c.document_id == some document_id)) = [] := by
        rw [h1, List.filter_eq_nil_iff]
        intro c hc
        rw [List.mem_filter] at hc
        obtain ⟨hcs, hnc⟩ := hc
        intro hdoc
        have hmm : c.id ∈ (store.filter
            (fun c => c.document_id == some document_id)).map (fun c => c.id) :=
          List.mem_map.mpr ⟨c, List.mem_filter.mpr ⟨hcs, hdoc⟩, rfl⟩
        simp [hmm] at hnc
      exact key _ h2

/-- Witness for `C10_delete_document`: deleting an id that matches no
chunk leaves the one-chunk store unchanged. -/
theorem C10_delete_document_witness :
    (∀ c ∈ [(⟨"a-chunk-0", "t", some "a", some 0, some "h", some "f", some 1⟩ : Chunk)],
      c.document_id ≠ some "b") ∧
    delete_document
      [⟨"a-chunk-0", "t", some "a", some 0, some "h", some "f", some 1⟩] "b" =
      [⟨"a-chunk-0", "t", some "a", some 0, some "h", some "f", some 1⟩] :=
  ⟨by decide,
   (C10_delete_document
     [⟨"a-chunk-0", "t", some "a", some 0, some "h", some "f", some 1⟩] "b").1
     (by decide)⟩

/-! ## Duplicate check (C8) -/

theorem lookup_append_single (m : List (String × α)) (k h : String) (v : α) :
    (m ++ [(k, v)]).lookup h =
      match m.lookup h with
      | some w => some w
      | Option.none => if h == k then some v else Option.none := by
  induction m with
  | nil => cases hk : h == k <;> simp [List.lookup, hk]
  | cons q rest ih =>
      cases hq : h == q.1 <;> simp [List.lookup, hq, ih]

theorem buildHashMap_foldl_lookup (chunks : List Chunk) (h : String) (hne : h ≠ "") :
    ∀ m : List (String × DocInfo),
      (chunks.foldl addHashEntry m).lookup h =
        match m.lookup h with
        | some v => some v
        | Option.none =>
            (chunks.find? (fun c => c.file_hash == some h)).map mkDocInfo := by
  induction chunks with
  | nil => intro m; cases hm : m.lookup h <;> simp [hm]
  | cons c cs ih =>
      intro m
      have hstep : (c :: cs).foldl addHashEntry m = cs.foldl addHashEntry (addHashEntry m c) := rfl
      rw [hstep]
      cases hch : c.file_hash with
      | none =>
          have hpred : (c.file_hash == some h) = false := by simp [hch]
          rw [show addHashEntry m c = m from by simp [addHashEntry, hch], ih m,
            List.find?_cons_of_neg _ (by simp [hpred])]
      | some hh =>
          by_cases hhh : hh = h
          · subst hhh
            have hpred : (c.file_hash == some hh) = true := by simp [hch]
            rw [List.find?_cons_of_pos _ (by simp [hpred])]
            cases hm : m.lookup hh with
            | some v =>
                have haddh : addHashEntry m c = m := by
                  simp [addHashEntry, hch, hm]
                rw [haddh, ih m]
                simp [hm]
            | none =>
                have haddh : addHashEntry m c = m ++ [(hh, mkDocInfo c)] := by
                  simp [addHashEntry, hch, hm, hne]
                rw [haddh, ih _, lookup_append_single]
                simp [hm]
          · have hpred : (c.file_hash == some h) = false := by simp [hch, hhh]
            rw [List.find?_cons_of_neg _ (by simp [hpred])]
            have hlk : (addHashEntry m c).lookup h = m.lookup h := by
              simp only [addHashEntry, hch]
              by_cases hcnd : hh ≠ "" ∧ (m.lookup hh).isNone
              · rw [if_pos hcnd, lookup_append_single]
                have hne2 : (h == hh) = false :=
                  beq_eq_false_iff_ne.mpr (fun he => hhh he.symm)
                cases hm : m.lookup h <;> simp [hm, hne2]
              · rw [if_neg hcnd]
            rw [ih (addHashEntry m c), hlk]

theorem buildHashMap_lookup (chunks : List Chunk) (h : String) (hne : h ≠ "") :
    (buildHashMap chunks).lookup h =
      (chunks.find? (fun c => c.file_hash == some h)).map mkDocInfo := by
  have := buildHashMap_foldl_lookup chunks h hne []
  simpa [buildHashMap] using this

theorem lookup_dictInsert_ne (k k' : String) (v : α) (m : List (String × α))
    (h : k' ≠ k) : (dictInsert k v m).lookup k' = m.lookup k' := by
  induction m with
  | nil => simp [dictInsert, List.lookup, show (k' == k) = false from by simp [h]]
  | cons q rest ih =>
      by_cases hq : q.1 = k
      · subst hq
        simp [dictInsert, List.lookup, show (k' == q.1) = false from by simp [h]]
      · cases hkq : k' == q.1 <;> simp [dictInsert, hq, List.lookup, hkq, ih]

theorem checkFold_untouched (m : List (String × DocInfo))
    (cs : List (String × String)) :
    ∀ (acc : List (String × CheckResult)) (k : String), k ∉ cs.map Prod.fst →
      (cs.foldl (fun res fc => dictInsert fc.1 (checkOne m fc.2) res) acc).lookup k =
        acc.lookup k := by
  induction cs with
  | nil => intro acc k _; rfl
  | cons fc rest ih =>
      intro acc k hk
      have hk1 : k ≠ fc.1 := by
        intro he; exact hk (by simp [he])
      have hk2 : k ∉ rest.map Prod.fst := by
        intro he; exact hk (by simp [he])
      have hstep : ((fc :: rest).foldl
          (fun res fc => dictInsert fc.1 (checkOne m fc.2) res) acc) =
          rest.foldl (fun res fc => dictInsert fc.1 (checkOne m fc.2) res)
            (dictInsert fc.1 (checkOne m fc.2) acc) := rfl
      rw [hstep, ih _ k hk2, lookup_dictInsert_ne _ _ _ _ hk1]

theorem checkFold_lookup (m : List (String × DocInfo))
    (checks : List (String × String)) (fname fhash : String) :
    ∀ acc, (fname, fhash) ∈ checks → (checks.map Prod.fst).Nodup →
      (checks.foldl (fun res fc => dictInsert fc.1 (checkOne m fc.2) res)
        acc).lookup fname = some (checkOne m fhash) := by
  induction checks with
  | nil => intro acc hmem _; simp at hmem
  | cons fc rest ih =>
      intro acc hmem hnd
      have hnd1 : fc.1 ∉ rest.map Prod.fst := by
        simp only [List.map_cons, List.nodup_cons] at hnd
        exact hnd.1
      have hnd2 : (rest.map Prod.fst).Nodup := by
        simp only [List.map_cons, List.nodup_cons] at hnd
        exact hnd.2
      have hstep : ((fc :: rest).foldl
          (fun res fc => dictInsert fc.1 (checkOne m fc.2) res) acc) =
          rest.foldl (fun res fc => dictInsert fc.1 (checkOne m fc.2) res)
            (dictInsert fc.1 (checkOne m fc.2) acc) := rfl
      rcases List.mem_cons.mp hmem with heq | hmem'
      · have hf : fname = fc.1 := by rw [← heq]
        have hh : fhash = fc.2 := by rw [← heq]
        subst hf; subst hh
        rw [hstep, checkFold_untouched m rest _ _ hnd1, lookup_dictInsert]
      · rw [hstep]
        exact ih _ hmem' hnd2

/-- C8 (counterexample): a chunk whose stored `file_hash` is the empty
string is skipped by the Python truthiness test `if file_hash`, so a
duplicate check for hash `""` reports `exists = False` even though a
chunk with `metadata.file_hash == ""` is present. -/
theorem C8_counterexample :
    (check_documents_exist
        [⟨"id0", "t", some "doc", some 0, some "", some "f.txt", some 10⟩]
        [("f.txt", "")]).lookup "f.txt" = some CheckResult.absent ∧
    (⟨"id0", "t", some "doc", some 0, some "", some "f.txt", some 10⟩ :
      Chunk).file_hash = some "" :=
  ⟨rfl, rfl⟩

/-- C8 (amended): for every non-empty file hash `h` submitted, the
check reports a duplicate iff some chunk in the store carries
`metadata.file_hash == h`, and in that case the reported `document_id`
and file name are those recorded on the first such chunk (file name
defaulting to "Unknown" when the chunk has none). -/
theorem C8_duplicate_check (chunks : List Chunk) (checks : List (String × String))
    (fname fhash : String) (hmem : (fname, fhash) ∈ checks)
    (hnodup : (checks.map Prod.fst).Nodup) (hne : fhash ≠ "") :
    ∃ r, (check_documents_exist chunks checks).lookup fname = some r ∧
      ((∃ c ∈ chunks, c.file_hash = some fhash) ↔ r ≠ CheckResult.absent) ∧
      (∀ did fn reason, r = CheckResult.found did fn reason →
        ∃ c, chunks.find? (fun c => c.file_hash == some fhash) = some c ∧
          c ∈ chunks ∧ c.file_hash = some fhash ∧
          did = c.document_id ∧ fn = c.file_name.getD "Unknown") := by
  refine ⟨checkOne (buildHashMap chunks) fhash, ?_, ?_, ?_⟩
  · exact checkFold_lookup (buildHashMap chunks) checks fname fhash [] hmem hnodup
  · cases hfind : chunks.find? (fun c => c.file_hash == some fhash) with
    | none =>
        have hr : checkOne (buildHashMap chunks) fhash = CheckResult.absent := by
          simp [checkOne, buildHashMap_lookup chunks fhash hne, hfind]
        rw [hr]
        simp only [ne_eq, not_true_eq_false, iff_false, not_exists]
        intro c hc
        obtain ⟨hcm, hch⟩ := hc
        have := List.find?_eq_none.mp hfind c hcm
        simp [hch] at this
    | some c =>
        have hr : checkOne (buildHashMap chunks) fhash =
            CheckResult.found (mkDocInfo c).document_id (mkDocInfo c).file_name
              ("Duplicate of '" ++ (mkDocInfo c).file_name ++
                "' (already uploaded)") := by
          simp [checkOne, buildHashMap_lookup chunks fhash hne, hfind]
        rw [hr]
        constructor
        · intro _
          simp
        · intro _
          exact ⟨c, List.mem_of_find?_eq_some hfind, by
            have := List.find?_some hfind
            simpa using this⟩
  · intro did fn reason hr
    cases hfind : chunks.find? (fun c => c.file_hash == some fhash) with
    | none =>
        have : checkOne (buildHashMap chunks) fhash = CheckResult.absent := by
          simp [checkOne, buildHashMap_lookup chunks fhash hne, hfind]
        rw [this] at hr
        exact absurd hr (by simp)
    | some c =>
        have hc : checkOne (buildHashMap chunks) fhash =
            CheckResult.found (mkDocInfo c).document_id (mkDocInfo c).file_name
              ("Duplicate of '" ++ (mkDocInfo c).file_name ++
                "' (already uploaded)") := by
          simp [checkOne, buildHashMap_lookup chunks fhash hne, hfind]
        rw [hc] at hr
        refine ⟨c, rfl, List.mem_of_find?_eq_some hfind, ?_, ?_, ?_⟩
        · have := List.find?_some hfind
          simpa using this
        · cases hr; rfl
        · cases hr; rfl

/-- Witness for `C8_duplicate_check`: a store containing a chunk with
hash "abc" answers the check for ("a.pdf", "abc"). -/
theorem C8_duplicate_check_witness :
    ((("a.pdf", "abc") ∈ [("a.pdf", "abc")]) ∧
      (([("a.pdf", "abc")].map Prod.fst).Nodup) ∧ "abc" ≠ "") ∧
    (∃ r, (check_documents_exist
        [⟨"id1", "t", some "d1", some 0, some "abc", some "a.pdf", some 5⟩]
        [("a.pdf", "abc")]).lookup "a.pdf" = some r ∧
      ((∃ c ∈ [(⟨"id1", "t", some "d1", some 0, some "abc", some "a.pdf",
          some 5⟩ : Chunk)], c.file_hash = some "abc") ↔ r ≠ CheckResult.absent) ∧
      (∀ did fn reason, r = CheckResult.found did fn reason →
        ∃ c, [(⟨"id1", "t", some "d1", some 0, some "abc", some "a.pdf",
            some 5⟩ : Chunk)].find? (fun c => c.file_hash == some "abc") = some c ∧
          c ∈ [(⟨"id1", "t", some "d1", some 0, some "abc", some "a.pdf",
            some 5⟩ : Chunk)] ∧ c.file_hash = some "abc" ∧
          did = c.document_id ∧ fn = c.file_name.getD "Unknown")) :=
  ⟨⟨by decide, by decide, by decide⟩,
   C8_duplicate_check
     [⟨"id1", "t", some "d1", some 0, some "abc", some "a.pdf", some 5⟩]
     [("a.pdf", "abc")] "a.pdf" "abc" (by decide) (by decide) (by decide)⟩

/-! ## Chunk-id invariant (C7) -/

theorem string_append_inj_left (a b c d : String) (hlen : a.length = b.length)
    (h : a ++ c = b ++ d) : a = b := by
  have hd : (a ++ c).data = (b ++ d).data := congrArg String.data h
  rw [String.data_append, String.data_append] at hd
  exact String.ext (List.append_inj hd hlen).1

theorem mem_stampFrom (did : String) (fh fn : Option String) (fs : Option Int) :
    ∀ (ts : List String) (i : Nat) (c : Chunk), c ∈ stampFrom did fh fn fs i ts →
      ∃ j t, c = stampChunk did j t fh fn fs := by
  intro ts
  induction ts with
  | nil => intro i c hc; simp [stampFrom] at hc
  | cons t ts ih =>
      intro i c hc
      rcases List.mem_cons.mp hc with hc | hc
      · exact ⟨i, t, hc⟩
      · exact ih (i + 1) c hc

theorem stampFrom_length (did : String) (fh fn : Option String) (fs : Option Int) :
    ∀ (ts : List String) (i : Nat), (stampFrom did fh fn fs i ts).length = ts.length := by
  intro ts
  induction ts with
  | nil => intro i; rfl
  | cons t ts ih => intro i; simp [stampFrom, ih]

theorem map_index_take_stampFrom (did : String) (fh fn : Option String)
    (fs : Option Int) :
    ∀ (ts : List String) (i k : Nat),
      (((stampFrom did fh fn fs i ts).take k).map (fun c => c.chunk_index)) =
        (List.range' i (min k ts.length)).map some := by
  intro ts
  induction ts with
  | nil => intro i k; simp [stampFrom]
  | cons t ts ih =>
      intro i k
      cases k with
      | zero => simp [stampFrom]
      | succ k =>
          have hmin : min (k + 1) (t :: ts).length = (min k ts.length) + 1 := by
            simp only [List.length_cons]
            exact Nat.succ_min_succ k ts.length
          rw [hmin, List.range'_succ i (min k ts.length) 1]
          simp only [stampFrom, List.take_succ_cons, List.map_cons]
          rw [ih (i + 1) k]
          rfl

theorem docid_take_stampFrom (did : String) (fh fn : Option String) (fs : Option Int)
    (ts : List String) (i k : Nat) :
    ∀ c ∈ (stampFrom did fh fn fs i ts).take k, c.document_id = some did := by
  intro c hc
  rcases mem_stampFrom did fh fn fs ts i c (List.mem_of_mem_take hc) with ⟨j, t, rfl⟩
  rfl

theorem upload_preserves (store : VectorStore) (did : String) (texts : List String)
    (fh fn : Option String) (fs : Option Int) (placed : Nat)
    (hinv : StoreInvariant store) (h36 : did.length = 36)
    (hfresh : ∀ c ∈ store, (c.document_id == some did) = false) :
    StoreInvariant (store ++ (stampNodes did texts fh fn fs).take placed) := by
  constructor
  · intro c hc
    rcases List.mem_append.mp hc with hc | hc
    · exact hinv.1 c hc
    · rcases mem_stampFrom did fh fn fs texts 0 c (List.mem_of_mem_take hc)
        with ⟨j, t, rfl⟩
      exact ⟨did, j, rfl, h36, rfl, rfl⟩
  · intro d
    rw [List.filter_append]
    by_cases hd : d = did
    · rw [hd]
      have h0 : store.filter (fun c => c.document_id == some did) = [] :=
        List.filter_eq_nil_iff.mpr (fun c hc => by simp [hfresh c hc])
      have hself : ((stampNodes did texts fh fn fs).take placed).filter
          (fun c => c.document_id == some did) =
          (stampNodes did texts fh fn fs).take placed :=
        List.filter_eq_self.mpr (fun c hc => by
          simp [docid_take_stampFrom did fh fn fs texts 0 placed c hc])
      rw [h0, hself, List.nil_append]
      have hlen : ((stampNodes did texts fh fn fs).take placed).length =
          min placed texts.length := by
        rw [List.length_take]
        simp only [stampNodes]
        rw [stampFrom_length]
      rw [hlen]
      have := map_index_take_stampFrom did fh fn fs texts 0 placed
      rw [List.range_eq_range']
      exact this
    · have h0 : ((stampNodes did texts fh fn fs).take placed).filter
          (fun c => c.document_id == some d) = [] :=
        List.filter_eq_nil_iff.mpr (fun c hc => by
          have hcd := docid_take_stampFrom did fh fn fs texts 0 placed c hc
          have hne : (some did == some d) = false := by
            apply beq_eq_false_iff_ne.mpr
            intro he
            exact hd (Option.some.inj he).symm
          rw [hcd]
          simp [hne])
      rw [h0, List.append_nil]
      exact hinv.2 d

theorem delete_preserves (store : VectorStore) (did : String)
    (hinv : StoreInvariant store) :
    StoreInvariant (delete_document store did) := by
  by_cases hids : ((store.filter (fun c => c.document_id == some did)).map
      (fun c => c.id)).isEmpty
  · have heq : delete_document store did = store := by
      simp only [delete_document]
      rw [if_pos hids]
    rw [heq]; exact hinv
  · have heq : delete_document store did =
        store.filter (fun c => !(c.document_id == some did)) := by
      simp only [delete_document]
      rw [if_neg hids]
      apply List.filter_congr
      intro c hc
      congr 1
      cases hdoc : (c.document_id == some did) with
      | true =>
          have hmm : c.id ∈ (store.filter (fun c => c.document_id == some did)).map
              (fun c => c.id) :=
            List.mem_map.mpr ⟨c, List.mem_filter.mpr ⟨hc, hdoc⟩, rfl⟩
          simpa using hmm
      | false =>
          rw [Bool.eq_false_iff]
          intro hcontra
          have hmm : c.id ∈ (store.filter (fun c => c.document_id == some did)).map
              (fun c => c.id) := by simpa using hcontra
          rcases List.mem_map.mp hmm with ⟨c', hc', hid⟩
          rw [List.mem_filter] at hc'
          obtain ⟨hc's, hc'doc⟩ := hc'
          rcases hinv.1 c hc with ⟨dc, ic, hdc, h36c, _, hidc⟩
          rcases hinv.1 c' hc's with ⟨dc', ic', hdc', h36c', _, hidc'⟩
          have hdid' : dc' = did := by
            rw [hdc'] at hc'doc
            simpa using hc'doc
          have hne : dc ≠ did := by
            intro he
            rw [hdc, he] at hdoc
            simp at hdoc
          have hcat : dc' ++ ("-chunk-" ++ toString ic') =
              dc ++ ("-chunk-" ++ toString ic) := by
            rw [← String.append_assoc, ← String.append_assoc, ← hidc', ← hidc, hid]
          have : dc' = dc :=
            string_append_inj_left _ _ _ _ (by rw [h36c', h36c]) hcat
          exact hne (by rw [← this, hdid'])
    rw [heq]
    constructor
    · intro c hc
      exact hinv.1 c (List.mem_filter.mp hc).1
    · intro d
      by_cases hd : d = did
      · rw [hd]
        have h0 : (store.filter (fun c => !(c.document_id == some did))).filter
            (fun c => c.document_id == some did) = [] := by
          rw [List.filter_eq_nil_iff]
          intro c hc
          have h2 := (List.mem_filter.mp hc).2
          intro hpred
          rw [hpred] at h2
          simp at h2
        rw [h0]
        rfl
      · have h0 : (store.filter (fun c => !(c.document_id == some did))).filter
            (fun c => c.document_id == some d) =
            store.filter (fun c => c.document_id == some d) := by
          rw [List.filter_filter]
          apply List.filter_congr
          intro c hc
          cases hB : (c.document_id == some d) with
          | true =>
              have hcd : c.document_id = some d := by simpa using hB
              have hne : (some d == some did) = false := by
                apply beq_eq_false_iff_ne.mpr
                intro he
                exact hd (Option.some.inj he)
              rw [hcd]
              simp [hne]
          | false => simp
        rw [h0]
        exact hinv.2 d

theorem applyOps_invariant (ops : List StoreOp) :
    ∀ store, StoreInvariant store → freshOk store ops = true →
      StoreInvariant (applyOps store ops) := by
  induction ops with
  | nil => intro store hinv _; exact hinv
  | cons op ops ih =>
      intro store hinv hfresh
      cases op with
      | upload did texts fh fn fs placed =>
          have hfresh' : ((decide (did.length = 36) &&
              store.all (fun c => !(c.document_id == some did))) &&
              freshOk (applyOp store (StoreOp.upload did texts fh fn fs placed))
                ops) = true := hfresh
          simp only [Bool.and_eq_true] at hfresh'
          obtain ⟨⟨h36, hall⟩, hrest⟩ := hfresh'
          exact ih _ (upload_preserves store did texts fh fn fs placed hinv
            (of_decide_eq_true h36)
            (fun c hc => by
              have := List.all_eq_true.mp hall c hc
              simpa using this)) hrest
      | delete did =>
          have hfresh' : (true &&
              freshOk (applyOp store (StoreOp.delete did)) ops) = true := hfresh
          simp only [Bool.true_and] at hfresh'
          exact ih _ (delete_preserves store did hinv) hfresh'

/-- C7: starting from an empty collection, after any sequence of uploads
(each with a fresh 36-character `uuid4` document id, possibly stopping
after only a prefix of its chunks was inserted) and deletions, every
chunk in the store has `id = "{document_id}-chunk-{chunk_index}"` built
from its own metadata fields, and within each document the chunk
indices enumerate the document's stored chunks from 0 in order. -/
theorem C7_chunk_id_invariant (ops : List StoreOp)
    (hfresh : freshOk [] ops = true) :
    StoreInvariant (applyOps [] ops) :=
  applyOps_invariant ops []
    ⟨fun c hc => absurd hc (by simp), fun d => rfl⟩ hfresh

/-- Witness for `C7_chunk_id_invariant`: upload two chunks under a
uuid4-style id, a third chunk under a second id whose insert stopped
after one of two chunks, then delete the first document. -/
theorem C7_chunk_id_invariant_witness :
    freshOk []
      [StoreOp.upload "123e4567-e89b-12d3-a456-426614174000" ["t1", "t2"]
        (some "h1") (some "f1") (some 9) 2,
       StoreOp.upload "00000000-0000-4000-8000-000000000000" ["u1", "u2"]
        (some "h2") (some "f2") (some 9) 1,
       StoreOp.delete "123e4567-e89b-12d3-a456-426614174000"] = true ∧
    StoreInvariant (applyOps []
      [StoreOp.upload "123e4567-e89b-12d3-a456-426614174000" ["t1", "t2"]
        (some "h1") (some "f1") (some 9) 2,
       StoreOp.upload "00000000-0000-4000-8000-000000000000" ["u1", "u2"]
        (some "h2") (some "f2") (some 9) 1,
       StoreOp.delete "123e4567-e89b-12d3-a456-426614174000"]) :=
  ⟨by decide,
   C7_chunk_id_invariant
     [StoreOp.upload "123e4567-e89b-12d3-a456-426614174000" ["t1", "t2"]
        (some "h1") (some "f1") (some 9) 2,
      StoreOp.upload "00000000-0000-4000-8000-000000000000" ["u1", "u2"]
        (some "h2") (some "f2") (some 9) 1,
      StoreOp.delete "123e4567-e89b-12d3-a456-426614174000"]
     (by decide)⟩

end RagDocling
